import Mathlib

/-!
# Verification of the megaorm-cli migration batch engine

This file gives a shallow embedding of the migration batch engine of
`megaorm-cli` (the `GeneratorHandler` class and its helper functions) and
proves the specified properties about it.

Modelling conventions:

* The database is modelled as reliable state: the ledger (`generators`
  table) is a list of rows threaded through each operation; the `add` /
  `remove` builder calls of the source become pure state updates.
  Failures of the *migration definitions themselves* (`create()` /
  `drop()` rejecting, or returning a non-awaitable value) are the failure
  modes the specification talks about and are modelled explicitly.
* Dynamic module loading (`collectGenerators`) is modelled by an
  environment `env : String → GenSpec` mapping a generator file path to
  the behaviour of the definition it exports; all modules are assumed to
  resolve (resolution failures are outside the proved claims).
* Promise chains become explicit sequencing; the value of a settled
  promise chain is an `Except` value.
-/

/-- Behaviour of one `create()` / `drop()` call of a migration definition:
it can resolve, reject with a message, or return a non-awaitable value
(`isPromise` check fails in the source). -/
inductive CallOutcome where
  | ok
  | fails (msg : String)
  | notPromise
deriving DecidableEq, Repr

/-- The observable behaviour of the generator object exported by one
generator file: its constructor name (used in error messages), the table
it manages (`get.table()`), and the behaviour of `create()` / `drop()`. -/
structure GenSpec where
  className : String
  table : String
  create : CallOutcome
  drop : CallOutcome
deriving DecidableEq, Repr

/-- One row of the `generators` ledger table.  The auto-increment
surrogate `id` is not observable in any engine operation and is omitted;
the provisioned schema itself (including `id`) is modelled in
`generatorTableColumns`. -/
structure Row where
  path : String
  batch : Nat
deriving DecidableEq, Repr

/-- Result of `beReadyToGenerate`: the pending paths and the new batch. -/
structure Gen where
  paths : List String
  batch : Nat
deriving DecidableEq, Repr

/-- `sfx` of the source: `""` for a one-element array, else `"s"`. -/
def sfx {α : Type} (paths : List α) : String :=
  if paths.length = 1 then "" else "s"

/-- `lastBatch` of the source: highest batch number of the array, `0` when
it is empty (`reduce` with initial accumulator `0`). -/
def lastBatch (batches : List Nat) : Nat :=
  if batches.isEmpty then 0
  else batches.foldl (fun last b => if b > last then b else last) 0

/-- Result of the sequential `create` / `drop` loop inside
`createTables` / `dropTables`: the paths whose call resolved (`created` /
`dropped` accumulator of the source), the paths on which the call was
invoked at all, and the first error message if the loop stopped. -/
structure LoopResult where
  succeeded : List String
  attempted : List String
  firstError : Option String
deriving DecidableEq, Repr

/-- The sequential loop shared by `createTables` and `dropTables`: invoke
`act` on each definition strictly in order; a non-awaitable return rejects
with `Invalid <verb> method in: <constructor name>`; a rejection stops the
loop; later paths are not attempted. -/
def seqRun (act : GenSpec → CallOutcome) (verb : String)
    (env : String → GenSpec) : List String → LoopResult
  | [] => ⟨[], [], none⟩
  | p :: ps =>
    match act (env p) with
    | .notPromise =>
        ⟨[], [p], some ("Invalid " ++ verb ++ " method in: " ++ (env p).className)⟩
    | .fails m => ⟨[], [p], some m⟩
    | .ok =>
        let r := seqRun act verb env ps
        ⟨p :: r.succeeded, p :: r.attempted, r.firstError⟩

/-- A ledger row inserted by `add(paths, batch, builder)`. -/
def mkRow (p : String) (b : Nat) : Row := ⟨p, b⟩

/-- `GeneratorHandler.createTables`: run `create()` on each path in order,
then insert the successfully created paths with the batch number into the
ledger — also when the loop stopped early, as long as at least one path
succeeded — and resolve or reject with the `<n>/<total> table(s) created`
message. -/
def createTables (env : String → GenSpec) (paths : List String) (batch : Nat)
    (rows : List Row) : List Row × Except String String :=
  if paths.isEmpty then (rows, .error "Ops! No generator found")
  else
    let r := seqRun GenSpec.create "create" env paths
    let newRows := r.succeeded.map (fun p => mkRow p batch)
    match r.firstError with
    | none =>
        (rows ++ newRows,
         .ok (toString r.succeeded.length ++ "/" ++ toString paths.length
              ++ " table" ++ sfx paths ++ " created"))
    | some e =>
        let msg := toString r.succeeded.length ++ "/" ++ toString paths.length
            ++ " table" ++ sfx paths ++ " created: " ++ e
        if r.succeeded.length > 0 then (rows ++ newRows, .error msg)
        else (rows, .error msg)

/-- `GeneratorHandler.dropTables`: run `drop()` on each path in order, then
delete the ledger rows whose path is among the successfully dropped paths
(`remove(dropped, builder)`), and resolve or reject with the
`<n>/<total> table(s) dropped` message. -/
def dropTables (env : String → GenSpec) (paths : List String)
    (rows : List Row) : List Row × Except String String :=
  if paths.isEmpty then (rows, .error "Ops! No generator found")
  else
    let r := seqRun GenSpec.drop "drop" env paths
    let remaining := rows.filter (fun row => !(r.succeeded.contains row.path))
    match r.firstError with
    | none =>
        (remaining,
         .ok (toString r.succeeded.length ++ "/" ++ toString paths.length
              ++ " table" ++ sfx paths ++ " dropped"))
    | some e =>
        let msg := toString r.succeeded.length ++ "/" ++ toString paths.length
            ++ " table" ++ sfx paths ++ " dropped: " ++ e
        if r.succeeded.length > 0 then (remaining, .error msg)
        else (rows, .error msg)

/-- `GeneratorHandler.beReadyToGenerate`, after `load()` has filled the row
cache and `collectPaths` has produced the directory listing: next batch is
`lastBatch + 1`, pending paths are the directory paths not recorded in the
ledger, and an empty pending set is the `Nothing to generate` error. -/
def beReadyToGenerate (rows : List Row) (allPaths : List String) :
    Except String Gen :=
  let batch := lastBatch (rows.map Row.batch) + 1
  let dbPaths := rows.map Row.path
  let paths := allPaths.filter (fun p => !(dbPaths.contains p))
  if paths.isEmpty then .error "Nothing to generate"
  else .ok ⟨paths, batch⟩

/-- `GeneratorHandler.beReadyToRollback`, after `load()`: select the rows
of the highest batch, map them to their paths, reverse, and fail with
`Nothing to rollback` when the result is empty. -/
def beReadyToRollback (rows : List Row) : Except String (List String) :=
  let batch := lastBatch (rows.map Row.batch)
  let paths := ((rows.filter (fun g => g.batch == batch)).map Row.path).reverse
  if paths.isEmpty then .error "Nothing to rollback"
  else .ok paths

/-- `GeneratorHandler.generate` on an already-collected directory listing:
plan, then create. -/
def generate (env : String → GenSpec) (rows : List Row)
    (allPaths : List String) : List Row × Except String String :=
  match beReadyToGenerate rows allPaths with
  | .error e => (rows, .error e)
  | .ok g => createTables env g.paths g.batch rows

/-- `GeneratorHandler.rollback`: plan, then drop. -/
def rollback (env : String → GenSpec) (rows : List Row) :
    List Row × Except String String :=
  match beReadyToRollback rows with
  | .error e => (rows, .error e)
  | .ok paths => dropTables env paths rows

/-- One engine invocation: `generate` over a given directory listing, or
`rollback`. -/
inductive MigOp where
  | apply (dirPaths : List String)
  | undo
deriving Repr

/-- Run a sequence of engine invocations against the ledger, collecting
the batch number assigned by every `generate` call that got past planning
(the batch the planner hands to `createTables`). -/
def runOps (env : String → GenSpec) : List Row → List MigOp → List Row × List Nat
  | rows, [] => (rows, [])
  | rows, .apply dir :: ops =>
    match beReadyToGenerate rows dir with
    | .error _ => runOps env rows ops
    | .ok g =>
        let st := createTables env g.paths g.batch rows
        let rest := runOps env st.1 ops
        (rest.1, g.batch :: rest.2)
  | rows, .undo :: ops =>
    let st := rollback env rows
    let rest := runOps env st.1 ops
    (rest.1, rest.2)

/-- Run a sequence of `generate` calls (no undos), collecting assigned
batch numbers as in `runOps`. -/
def runApplies (env : String → GenSpec) :
    List Row → List (List String) → List Row × List Nat
  | rows, [] => (rows, [])
  | rows, dir :: dirs =>
    match beReadyToGenerate rows dir with
    | .error _ => runApplies env rows dirs
    | .ok g =>
        let st := createTables env g.paths g.batch rows
        let rest := runApplies env st.1 dirs
        (rest.1, g.batch :: rest.2)

/-- A failure raised by the query-executing collaborator.  The source
distinguishes instances of the `QueryError` class (the recognized
"relation does not exist" class that triggers ledger auto-provisioning)
from every other error. -/
inductive DbFailure where
  | queryError (msg : String)
  | other (msg : String)
deriving DecidableEq, Repr

/-- One column of a provisioned table schema, with the modifiers the
source's `Generator.create` uses. -/
structure ColumnDef where
  colName : String
  pk : Bool
  textType : Bool
  smallInt : Bool
  unsigned : Bool
  notNull : Bool
deriving DecidableEq, Repr

/-- The schema built by `Generator.create`:
`column('id').pk()`, `column('path').text().notNull()`,
`column('batch').smallInt().unsigned().notNull()`. -/
def generatorTableColumns : List ColumnDef :=
  [⟨"id", true, false, false, false, false⟩,
   ⟨"path", false, true, false, false, true⟩,
   ⟨"batch", false, false, true, true, true⟩]

/-- A statement issued by `GeneratorHandler.load`. -/
inductive LoadAction where
  | selectAll (table : String)
  | createTable (table : String) (cols : List ColumnDef)
deriving DecidableEq, Repr

/-- Observable result of one `load()` call: the row cache afterwards, the
statements issued, and the settled value. -/
structure LoadResult where
  cache : List Row
  actions : List LoadAction
  result : Except DbFailure Unit
deriving Repr

/-- `GeneratorHandler.load`: issue `SELECT * FROM generators;`.  On
success cache the rows.  On a `QueryError` provision the `generators`
table via `Generator.create` (leaving the cache untouched).  Any other
failure propagates unchanged.  `selectOutcome` is the collaborator's
response to the SELECT, `createOutcome` the response to the provisioning
schema statement. -/
def load (cache0 : List Row) (selectOutcome : Except DbFailure (List Row))
    (createOutcome : Except DbFailure Unit) : LoadResult :=
  match selectOutcome with
  | .ok rows => ⟨rows, [.selectAll "generators"], .ok ()⟩
  | .error e =>
    match e with
    | .queryError _ =>
        ⟨cache0,
         [.selectAll "generators",
          .createTable "generators" generatorTableColumns],
         createOutcome⟩
    | .other m => ⟨cache0, [.selectAll "generators"], .error (.other m)⟩

/-- Extension of a (validated) generator directory entry:
`01_generate_users_table.ts` / `.js` are source files accepted by
`isFile`, `.js.map` / `.d.ts` are the compiled artifacts accepted by
`isMappedFile`. -/
inductive MigExt where
  | ts | js | jsMap | dts
deriving DecidableEq, Repr

/-- Rendering of the extension on disk. -/
def MigExt.render : MigExt → String
  | .ts => "ts"
  | .js => "js"
  | .jsMap => "js.map"
  | .dts => "d.ts"

/-- A validated generator directory entry
`<dir>/<numStr>_generate_<table>_table.<ext>`, exactly the shape
`collectPaths` guarantees (every name passes `isFile` or `isMappedFile`).
`numStr` is the numeric prefix as written (so `"01"` and `"1"` are
distinct strings with the same value). -/
structure MigFile where
  dir : String
  numStr : String
  table : String
  ext : MigExt
deriving DecidableEq, Repr

/-- Basename of the entry on disk. -/
def MigFile.base (f : MigFile) : String :=
  f.numStr ++ "_generate_" ++ f.table ++ "_table." ++ f.ext.render

/-- Absolute path of the entry. -/
def MigFile.path (f : MigFile) : String := f.dir ++ "/" ++ f.base

/-- Numeric value of a digit-string key (`parseInt` of the source on the
captured numeric prefix, which is always a non-empty digit string). -/
def keyVal (s : String) : Nat :=
  s.data.foldl (fun n c => n * 10 + (c.toNat - 48)) 0

/-- Order on group keys used by `group`'s sort comparator
`(a, b) => parseInt(a) - parseInt(b)`. -/
def keyLe (a b : String) : Prop := keyVal a ≤ keyVal b

instance : DecidableRel keyLe := fun a b => Nat.decLe (keyVal a) (keyVal b)

instance : IsTotal String keyLe := ⟨fun a b => Nat.le_total (keyVal a) (keyVal b)⟩

instance : IsTrans String keyLe := ⟨fun _ _ _ => Nat.le_trans⟩

/-- The distinct numeric-prefix keys of `group`'s `storage` object, in
first-occurrence order. -/
def groupKeys (files : List MigFile) : List String :=
  files.foldl
    (fun ks f => if ks.contains f.numStr then ks else ks ++ [f.numStr]) []

/-- `group` of the source: bucket the files by their numeric prefix and
return the buckets ordered by `parseInt` of the key.  (The source sorts
the object keys with a stable sort by `parseInt`; with distinct keys of
distinct values — the only case arising from a validly numbered
directory — any sort by value produces this same list.) -/
def group (files : List MigFile) : List (List MigFile) :=
  (List.insertionSort keyLe (groupKeys files)).map
    (fun k => files.filter (fun f => f.numStr == k))

/-- `padStart(2, '0')` applied to the decimal rendering of `n`. -/
def pad2 (n : Nat) : String :=
  let s := Nat.repr n
  if s.length < 2 then "0" ++ s else s

/-- `rename` of the source: the i-th group (0-based) is renamed to carry
sequence `i + 1`, zero-padded to width 2; the basename after the numeric
prefix and the directory are preserved.  Returns the `(from, to)` pairs
handed to `fs.rename`, in issue order. -/
def rename (groups : List (List MigFile)) : List (MigFile × MigFile) :=
  (groups.enum.map (fun p =>
    p.2.map (fun f => (f, MigFile.mk f.dir (pad2 (p.1 + 1)) f.table f.ext)))).flatten

/-- The `remove` regex
`[0-9]+_generate_<name>_table\.(ts|js|js\.map|d\.ts)$` evaluated on a
validated entry: on names produced by `MigFile.path` it holds exactly for
the entries of the target table (any of the four extensions). -/
def matchesTable (name : String) (f : MigFile) : Bool :=
  f.table == name

/-- `isTsFile` of the source on a validated entry. -/
def isTsFile (f : MigFile) : Bool := f.ext == MigExt.ts

/-- The guard of the `reset` closure inside `GeneratorHandler.remove`:
the reset is skipped exactly when the first collected path is a
TypeScript source file. -/
def resetSkipped (files : List MigFile) : Bool :=
  match files with
  | [] => false
  | f :: _ => isTsFile f

/-- Observable outcome of one `GeneratorHandler.remove` call:
whether `this.reset` was invoked, the files unlinked, the rename pairs
issued, and the settled value. -/
structure RemoveOutcome where
  resetInvoked : Bool
  deleted : List MigFile
  renamedPairs : List (MigFile × MigFile)
  result : Except String String
deriving Repr

/-- `GeneratorHandler.remove` on an already-collected directory listing
(`collectPaths(path, true)`, so compiled artifacts included), with the
outcome of `this.reset` — when it is invoked — given by `resetOutcome`.
Filesystem unlink / rename calls are modelled as reliable. -/
def removeRun (name : String) (files : List MigFile)
    (resetOutcome : Except String Unit) : RemoveOutcome :=
  let unlinkFiles := files.filter (fun f => matchesTable name f)
  let renameGroups := group (files.filter (fun f => !(matchesTable name f)))
  if unlinkFiles.isEmpty then
    ⟨false, [], [], .error ("No generator found for table: " ++ name)⟩
  else
    let message := toString unlinkFiles.length ++ " generator file"
        ++ sfx unlinkFiles ++ " removed in:\n"
        ++ String.intercalate "\n" (unlinkFiles.map MigFile.path)
    if resetSkipped files then
      ⟨false, unlinkFiles, rename renameGroups, .ok message⟩
    else
      match resetOutcome with
      | .error e => ⟨true, [], [], .error e⟩
      | .ok _ => ⟨true, unlinkFiles, rename renameGroups, .ok message⟩

/-- One step of the promise chain of `remove`, in completion order. -/
inductive RemoveEvent where
  | resetPerformed
  | unlinked (f : MigFile)
  | renamedTo (src dst : MigFile)
deriving DecidableEq, Repr

/-- The chain `reset().then(() => unlink(unlinkPaths)).then(() =>
rename(renamePaths))` as an event trace: the reset (when invoked) settles
first; all unlinks complete before any rename is issued. -/
def removeTrace (name : String) (files : List MigFile)
    (resetOutcome : Except String Unit) : List RemoveEvent :=
  let r := removeRun name files resetOutcome
  (if r.resetInvoked then [RemoveEvent.resetPerformed] else []) ++
  r.deleted.map RemoveEvent.unlinked ++
  r.renamedPairs.map (fun p => RemoveEvent.renamedTo p.1 p.2)

/-- `isMappedFile` of the source on a validated entry. -/
def isMappedFile (f : MigFile) : Bool :=
  f.ext == MigExt.jsMap || f.ext == MigExt.dts

/-- Observable outcome of one `GeneratorHandler.reset` call. -/
structure ResetOutcome where
  dropSequence : List String
  droppedCount : Nat
  result : Except String String
deriving Repr

/-- `GeneratorHandler.reset` on an already-collected directory listing
(`collectPaths(path, false)`, compiled artifacts filtered out): the paths
are reversed, every generator's table receives a `DROP TABLE`, failures
of individual drops are swallowed (`dropOk` says which drops succeed) and
only lower the success count, then the `generators` ledger table itself
is dropped (its outcome ignored).  `dropSequence` lists the tables in the
order their `DROP TABLE` statements are issued. -/
def resetRun (files : List MigFile) (dropOk : String → Bool) : ResetOutcome :=
  let sources := files.filter (fun f => !(isMappedFile f))
  if sources.isEmpty then ⟨[], 0, .error "Nothing to reset"⟩
  else
    let names := (sources.reverse).map MigFile.table
    let dropped := (names.filter dropOk).length
    ⟨names ++ ["generators"], dropped,
     .ok (toString dropped ++ "/" ++ toString sources.length
          ++ " table" ++ sfx sources ++ " dropped")⟩

/-- Modelled from the spec (§4.7 step 4 of SequenceManager.remove, a
behaviour stated in the spec but decided differently in the code): the
reset step is required exactly when some collected file is a plain source
file (a name matching `isSourceMigrationName`, extension `ts` or `js`)
rather than a compiled artifact (`js.map` / `d.ts`). -/
def specResetCondition (files : List MigFile) : Bool :=
  files.any (fun f => f.ext == MigExt.ts || f.ext == MigExt.js)

/-- An environment in which every definition's `create()` and `drop()`
resolve. -/
def allOkEnv : String → GenSpec := fun p => ⟨"Gen", p, .ok, .ok⟩

/-- Example directory for the corrected batch-reuse claim. -/
def exDirA : List String := ["m/01_generate_users_table.js"]

/-- Example ledger rows. -/
def exRows2 : List Row := [⟨"m/01_generate_users_table.js", 1⟩]

/-- Example directory listing: two pending files. -/
def exPaths2 : List String :=
  ["m/01_generate_users_table.js", "m/02_generate_posts_table.js"]

/-- Example validated entries for the sequence-renumbering claims. -/
def exFiles7 : List MigFile :=
  [⟨"m", "01", "users", .js⟩, ⟨"m", "02", "posts", .js⟩,
   ⟨"m", "03", "tags", .js⟩]

/-- Example pure-TypeScript directory for the reset-condition claims. -/
def exFilesTs : List MigFile :=
  [⟨"m", "01", "users", .ts⟩, ⟨"m", "02", "posts", .ts⟩]

/-- Error message produced when the sequential loop stops on a call
outcome that is not a resolution. -/
def seqErrMsg (verb : String) (g : GenSpec) : CallOutcome → String
  | .fails m => m
  | .notPromise => "Invalid " ++ verb ++ " method in: " ++ g.className
  | .ok => ""

/-- The files a `remove` call keeps: everything whose stem does not match
the target table (the input of `group` in the source's
`renamePaths = group(paths.filter(path => !regex.test(path)))`). -/
def keptFiles (name : String) (files : List MigFile) : List MigFile :=
  files.filter (fun f => !(matchesTable name f))

/-- Whether a remove-chain event is a file deletion. -/
def RemoveEvent.isUnlink : RemoveEvent → Bool
  | .unlinked _ => true
  | _ => false

/-- Whether a remove-chain event is a renumbering rename. -/
def RemoveEvent.isRenameEv : RemoveEvent → Bool
  | .renamedTo _ _ => true
  | _ => false

/-- Whether a remove-chain event is the completed reset step. -/
def RemoveEvent.isReset : RemoveEvent → Bool
  | .resetPerformed => true
  | _ => false

/-- Environment for the partial-failure witness: the second file's
`create()` rejects, everything else resolves. -/
def exEnvC1 : String → GenSpec := fun p =>
  if p = "b" then ⟨"PostsTableGenerator", "posts", .fails "boom", .ok⟩
  else ⟨"Gen", "t", .ok, .ok⟩

/-- Environment for the contract-violation witness: the second file's
`create()` and `drop()` return a non-awaitable value. -/
def exEnvC9 : String → GenSpec := fun p =>
  if p = "b" then ⟨"PostsTableGenerator", "posts", .notPromise, .notPromise⟩
  else ⟨"Gen", "t", .ok, .ok⟩

theorem lastBatch_eq_foldl (l : List Nat) : lastBatch l = l.foldl Nat.max 0 := by
  have hf : (fun last b => if b > last then b else last) = Nat.max := by
    funext a b
    by_cases h : b > a
    · simp [h, Nat.max_eq_right (Nat.le_of_lt h)]
    · simp [h, Nat.max_eq_left (Nat.le_of_not_lt h)]
  cases l with
  | nil => simp [lastBatch]
  | cons a l => simp [lastBatch, hf]

theorem foldl_max_shift (l : List Nat) (a : Nat) :
    l.foldl Nat.max a = Nat.max a (l.foldl Nat.max 0) := by
  induction l generalizing a with
  | nil => simp
  | cons b l ih =>
    simp only [List.foldl_cons]
    rw [ih (Nat.max a b), ih (Nat.max 0 b), show Nat.max 0 b = b by simp,
      show ∀ x y z : Nat, Nat.max (Nat.max x y) z = Nat.max x (Nat.max y z) from
        fun x y z => Nat.max_assoc x y z]

theorem le_foldl_max (l : List Nat) (a : Nat) : a ≤ l.foldl Nat.max a := by
  rw [foldl_max_shift]; exact Nat.le_max_left _ _

theorem mem_le_foldl_max (l : List Nat) (x : Nat) (h : x ∈ l) :
    x ≤ l.foldl Nat.max 0 := by
  induction l with
  | nil => simp at h
  | cons b l ih =>
    simp only [List.foldl_cons]
    rw [foldl_max_shift, show Nat.max 0 b = b by simp]
    rcases List.mem_cons.mp h with rfl | h2
    · exact Nat.le_max_left _ _
    · exact Nat.le_trans (ih h2) (Nat.le_max_right _ _)

theorem foldl_max_mem (l : List Nat) :
    l.foldl Nat.max 0 = 0 ∨ l.foldl Nat.max 0 ∈ l := by
  induction l with
  | nil => simp
  | cons b l ih =>
    simp only [List.foldl_cons]
    rw [foldl_max_shift, show Nat.max 0 b = b by simp]
    rcases ih with h | h
    · rw [h, show Nat.max b 0 = b by simp]
      right; exact List.mem_cons_self b l
    · rcases Nat.le_total b (l.foldl Nat.max 0) with hb | hb
      · rw [show Nat.max b (l.foldl Nat.max 0) = l.foldl Nat.max 0 from
          Nat.max_eq_right hb]
        right; exact List.mem_cons_of_mem b h
      · rw [show Nat.max b (l.foldl Nat.max 0) = b from Nat.max_eq_left hb]
        right; exact List.mem_cons_self b l

theorem lastBatch_le {l : List Nat} {x : Nat} (h : x ∈ l) : x ≤ lastBatch l := by
  rw [lastBatch_eq_foldl]; exact mem_le_foldl_max l x h

theorem lastBatch_mem {l : List Nat} (h : l ≠ []) : lastBatch l ∈ l := by
  rw [lastBatch_eq_foldl]
  rcases foldl_max_mem l with h0 | hm
  · cases l with
    | nil => exact absurd rfl h
    | cons b l =>
      have hb : b ≤ (b :: l).foldl Nat.max 0 :=
        mem_le_foldl_max _ _ (List.mem_cons_self b l)
      rw [h0] at hb ⊢
      have hb0 : b = 0 := Nat.le_antisymm hb (Nat.zero_le b)
      rw [← hb0]
      exact List.mem_cons_self b l
  · exact hm

theorem lastBatch_append (l1 l2 : List Nat) :
    lastBatch (l1 ++ l2) = Nat.max (lastBatch l1) (lastBatch l2) := by
  rw [lastBatch_eq_foldl, lastBatch_eq_foldl, lastBatch_eq_foldl,
    List.foldl_append, foldl_max_shift]

theorem lastBatch_map_const {α : Type} (l : List α) (c : Nat) (h : l ≠ []) :
    lastBatch (l.map (fun _ => c)) = c := by
  have hmem : lastBatch (l.map (fun _ => c)) ∈ l.map (fun _ => c) :=
    lastBatch_mem (by simpa using h)
  simp only [List.mem_map] at hmem
  rcases hmem with ⟨a, _, hc⟩
  omega

theorem seqRun_all_ok (act : GenSpec → CallOutcome) (verb : String)
    (env : String → GenSpec) :
    ∀ paths : List String, (∀ p ∈ paths, act (env p) = .ok) →
    seqRun act verb env paths = ⟨paths, paths, none⟩ := by
  intro paths h
  induction paths with
  | nil => rfl
  | cons p ps ih =>
    have hp : act (env p) = .ok := h p (List.mem_cons_self p ps)
    have hr := ih (fun q hq => h q (List.mem_cons_of_mem p hq))
    simp [seqRun, hp, hr]

theorem seqRun_stops (act : GenSpec → CallOutcome) (verb : String)
    (env : String → GenSpec) :
    ∀ (paths : List String) (i : Nat) (hi : i < paths.length),
      (∀ j (hj : j < i), act (env (paths.get ⟨j, Nat.lt_trans hj hi⟩)) = .ok) →
      ∀ o, act (env (paths.get ⟨i, hi⟩)) = o → o ≠ .ok →
      seqRun act verb env paths =
        ⟨paths.take i, paths.take (i + 1),
         some (seqErrMsg verb (env (paths.get ⟨i, hi⟩)) o)⟩ := by
  intro paths
  induction paths with
  | nil => intro i hi; simp at hi
  | cons p ps ih =>
    intro i hi hok o ho hne
    cases i with
    | zero =>
      have hp : act (env p) = o := ho
      cases o with
      | ok => exact absurd rfl hne
      | fails m => simp [seqRun, hp, seqErrMsg]
      | notPromise => simp [seqRun, hp, seqErrMsg]
    | succ i2 =>
      have hp : act (env p) = .ok := hok 0 (Nat.succ_pos i2)
      have hi2 : i2 < ps.length := Nat.lt_of_succ_lt_succ hi
      have hok2 : ∀ j (hj : j < i2),
          act (env (ps.get ⟨j, Nat.lt_trans hj hi2⟩)) = .ok := by
        intro j hj
        exact hok (j + 1) (Nat.succ_lt_succ hj)
      have hr := ih i2 hi2 hok2 o ho hne
      simp [seqRun, hp, hr]

/-- C2: for every ledger state and directory listing, apply-planning
returns batch `lastBatch + 1` where `lastBatch` is the maximum recorded
batch (`0` when the ledger is empty), together with the directory paths
minus the recorded paths in original directory order (a sublist of the
directory listing), and it fails with the nothing-to-apply error exactly
when that difference is empty. -/
theorem claim_C2 (rows : List Row) (allPaths : List String) :
    (allPaths.filter (fun p => !((rows.map Row.path).contains p)) ≠ [] →
      beReadyToGenerate rows allPaths =
        .ok ⟨allPaths.filter (fun p => !((rows.map Row.path).contains p)),
             lastBatch (rows.map Row.batch) + 1⟩)
    ∧ (allPaths.filter (fun p => !((rows.map Row.path).contains p)) = [] ↔
        beReadyToGenerate rows allPaths = .error "Nothing to generate")
    ∧ (∀ p, p ∈ allPaths.filter (fun q => !((rows.map Row.path).contains q)) ↔
        (p ∈ allPaths ∧ ¬ p ∈ rows.map Row.path))
    ∧ (allPaths.filter (fun p => !((rows.map Row.path).contains p))).Sublist
        allPaths
    ∧ (rows = [] → lastBatch (rows.map Row.batch) = 0)
    ∧ (rows ≠ [] →
        (∃ r ∈ rows, r.batch = lastBatch (rows.map Row.batch))
        ∧ ∀ r ∈ rows, r.batch ≤ lastBatch (rows.map Row.batch)) := by
  refine ⟨?_, ?_, ?_, List.filter_sublist allPaths, ?_, ?_⟩
  · intro h
    simp only [beReadyToGenerate]
    rw [if_neg (by simpa [List.isEmpty_iff] using h)]
  · by_cases h : allPaths.filter (fun p => !((rows.map Row.path).contains p)) = []
    · simp only [beReadyToGenerate]
      rw [if_pos (by simpa [List.isEmpty_iff] using h)]
      exact iff_of_true h rfl
    · simp only [beReadyToGenerate]
      rw [if_neg (by simpa [List.isEmpty_iff] using h)]
      exact iff_of_false h (by simp)
  · intro p
    simp [List.mem_filter]
  · intro h; subst h; simp [lastBatch]
  · intro h
    constructor
    · have hmem : lastBatch (rows.map Row.batch) ∈ rows.map Row.batch :=
        lastBatch_mem (by simpa using h)
      simp only [List.mem_map] at hmem
      rcases hmem with ⟨r, hr, hb⟩
      exact ⟨r, hr, hb⟩
    · intro r hr
      exact lastBatch_le (List.mem_map_of_mem Row.batch hr)

/-- C2 witness: a ledger with one applied file and a directory with one
extra file plans batch 2 with exactly the extra file pending. -/
theorem claim_C2_witness :
    beReadyToGenerate [Row.mk "m/01_generate_users_table.js" 1]
      ["m/01_generate_users_table.js", "m/02_generate_posts_table.js"] =
      .ok ⟨["m/02_generate_posts_table.js"], 2⟩ :=
  (claim_C2 [Row.mk "m/01_generate_users_table.js" 1]
      ["m/01_generate_users_table.js", "m/02_generate_posts_table.js"]).1
    (by decide)

/-- C3: undo-planning selects exactly the rows whose batch is the maximum
batch of the ledger, maps them to their paths, reverses the list, and
fails with the nothing-to-undo error exactly when that list is empty
(equivalently, exactly when the ledger is empty). -/
theorem claim_C3 (rows : List Row) :
    (((rows.filter
        (fun g => g.batch == lastBatch (rows.map Row.batch))).map
          Row.path).reverse ≠ [] →
      beReadyToRollback rows =
        .ok (((rows.filter
          (fun g => g.batch == lastBatch (rows.map Row.batch))).map
            Row.path).reverse))
    ∧ (((rows.filter
        (fun g => g.batch == lastBatch (rows.map Row.batch))).map
          Row.path).reverse = [] ↔
        beReadyToRollback rows = .error "Nothing to rollback")
    ∧ (∀ r ∈ rows.filter
        (fun g => g.batch == lastBatch (rows.map Row.batch)),
        r.batch = lastBatch (rows.map Row.batch))
    ∧ (∀ r ∈ rows, r.batch = lastBatch (rows.map Row.batch) →
        r ∈ rows.filter (fun g => g.batch == lastBatch (rows.map Row.batch)))
    ∧ (∀ r ∈ rows, r.batch ≤ lastBatch (rows.map Row.batch))
    ∧ (((rows.filter
        (fun g => g.batch == lastBatch (rows.map Row.batch))).map
          Row.path).reverse = [] ↔ rows = []) := by
  refine ⟨?_, ?_, ?_, ?_, ?_, ?_⟩
  · intro h
    simp only [beReadyToRollback]
    rw [if_neg (by simpa [List.isEmpty_iff] using h)]
  · by_cases h : ((rows.filter
        (fun g => g.batch == lastBatch (rows.map Row.batch))).map
          Row.path).reverse = []
    · simp only [beReadyToRollback]
      rw [if_pos (by simpa [List.isEmpty_iff] using h)]
      simp [h]
    · simp only [beReadyToRollback]
      rw [if_neg (by simpa [List.isEmpty_iff] using h)]
      simp [h]
  · intro r hr
    have := List.mem_filter.mp hr
    simpa using this.2
  · intro r hr hb
    exact List.mem_filter.mpr ⟨hr, by simpa using hb⟩
  · intro r hr
    exact lastBatch_le (List.mem_map_of_mem Row.batch hr)
  · constructor
    · intro h
      by_contra hne
      have hmem : lastBatch (rows.map Row.batch) ∈ rows.map Row.batch :=
        lastBatch_mem (by simpa using hne)
      simp only [List.mem_map] at hmem
      rcases hmem with ⟨r, hr, hb⟩
      have : r ∈ rows.filter
          (fun g => g.batch == lastBatch (rows.map Row.batch)) :=
        List.mem_filter.mpr ⟨hr, by simpa using hb⟩
      simp only [List.reverse_eq_nil_iff, List.map_eq_nil_iff] at h
      rw [h] at this
      simp at this
    · intro h; subst h; simp

/-- C3 witness: a two-batch ledger rolls back only the latest batch, in
reverse insertion order. -/
theorem claim_C3_witness :
    beReadyToRollback
      [Row.mk "a" 1, Row.mk "b" 2, Row.mk "c" 2] = .ok ["c", "b"] :=
  (claim_C3 [Row.mk "a" 1, Row.mk "b" 2, Row.mk "c" 2]).1 (by decide)

theorem get_not_mem_take {α : Type} {l : List α} (h : l.Nodup) (i : Nat)
    (hi : i < l.length) : l.get ⟨i, hi⟩ ∉ l.take i := by
  intro hmem
  have hnd : (l.take i ++ l.drop i).Nodup := by
    rw [List.take_append_drop i l]; exact h
  have hdis := List.disjoint_of_nodup_append hnd
  have h0 : 0 < (l.drop i).length := by
    rw [List.length_drop]; omega
  have hdrop : l.get ⟨i, hi⟩ ∈ l.drop i := by
    have hg : (l.drop i).get ⟨0, h0⟩ = l.get ⟨i, hi⟩ := by
      simp [List.get_eq_getElem, List.getElem_drop]
    rw [← hg]
    exact List.get_mem _ _ _
  exact hdis hmem hdrop

theorem take_length_of_lt {α : Type} {l : List α} {i : Nat}
    (hi : i < l.length) : (l.take i).length = i := by
  rw [List.length_take]
  omega

/-- C1: when the `i`-th migration's `create()` rejects (all earlier ones
having resolved), `createTables` commits exactly the successful prefix —
the paths before index `i` — to the ledger with the given batch number
while surfacing the error, the loop never attempts paths after index `i`,
and no ledger row is inserted for the failing path. -/
theorem claim_C1 (env : String → GenSpec) (paths : List String) (batch : Nat)
    (rows : List Row) (i : Nat) (hi : i < paths.length) (m : String)
    (hfail : (env (paths.get ⟨i, hi⟩)).create = CallOutcome.fails m)
    (hok : ∀ j (hj : j < i),
      (env (paths.get ⟨j, Nat.lt_trans hj hi⟩)).create = CallOutcome.ok)
    (hnodup : paths.Nodup) :
    createTables env paths batch rows =
      (rows ++ (paths.take i).map (fun p => mkRow p batch),
       .error (toString i ++ "/" ++ toString paths.length ++ " table"
         ++ sfx paths ++ " created: " ++ m))
    ∧ (seqRun GenSpec.create "create" env paths).attempted = paths.take (i + 1)
    ∧ ∀ r ∈ (paths.take i).map (fun p => mkRow p batch),
        r.path ≠ paths.get ⟨i, hi⟩ := by
  have hne : paths ≠ [] := by
    intro h; subst h; simp at hi
  have hfne : CallOutcome.fails m ≠ CallOutcome.ok :=
    fun hc => CallOutcome.noConfusion hc
  have hrun := seqRun_stops GenSpec.create "create" env paths i hi hok
    (CallOutcome.fails m) hfail hfne
  have hmsg : seqErrMsg "create" (env (paths.get ⟨i, hi⟩))
      (CallOutcome.fails m) = m := rfl
  rw [hmsg] at hrun
  have hlen : (paths.take i).length = i := take_length_of_lt hi
  have hnotmem : paths.get ⟨i, hi⟩ ∉ paths.take i := get_not_mem_take hnodup i hi
  refine ⟨?_, ?_, ?_⟩
  · simp only [createTables, hrun]
    rw [if_neg (by simp only [List.isEmpty_iff]; exact hne)]
    simp only [hlen]
    by_cases hi0 : i = 0
    · subst hi0
      simp
    · rw [if_pos (Nat.pos_of_ne_zero hi0)]
  · rw [hrun]
  · intro r hr
    simp only [List.mem_map] at hr
    rcases hr with ⟨p, hp, rfl⟩
    intro heq
    exact hnotmem (heq ▸ hp)

/-- C1 witness: with `["a", "b", "c"]` and `b`'s `create()` rejecting,
only the row for `a` is committed, with the requested batch. -/
theorem claim_C1_witness :
    createTables exEnvC1 ["a", "b", "c"] 7 [Row.mk "z" 1] =
      ([Row.mk "z" 1, Row.mk "a" 7],
       .error "1/3 tables created: boom") :=
  (claim_C1 exEnvC1 ["a", "b", "c"] 7 [Row.mk "z" 1] 1 (by decide) "boom"
    (by decide)
    (fun j hj => by
      have hj0 : j = 0 := by omega
      subst hj0
      show (exEnvC1 (["a", "b", "c"].get ⟨0, by decide⟩)).create =
        CallOutcome.ok
      decide)
    (by decide)).1

/-- C9: if the `i`-th definition's `create()` (resp. `drop()`) returns a
non-awaitable value while all earlier calls resolved, the apply
(resp. undo) call aborts with the descriptive `Invalid create/drop
method in: <class>` error, the offending path is not counted among the
applied (resp. dropped) paths — only the prefix before `i` is committed
(resp. forgotten) — and the offending path's ledger row is neither
recorded nor deleted. -/
theorem claim_C9 (env : String → GenSpec) (paths : List String) (batch : Nat)
    (rows : List Row) (i : Nat) (hi : i < paths.length)
    (hnodup : paths.Nodup) :
    ((env (paths.get ⟨i, hi⟩)).create = CallOutcome.notPromise →
      (∀ j (hj : j < i),
        (env (paths.get ⟨j, Nat.lt_trans hj hi⟩)).create = CallOutcome.ok) →
      createTables env paths batch rows =
        (rows ++ (paths.take i).map (fun p => mkRow p batch),
         .error (toString i ++ "/" ++ toString paths.length ++ " table"
           ++ sfx paths ++ " created: "
           ++ ("Invalid create method in: "
                ++ (env (paths.get ⟨i, hi⟩)).className)))
      ∧ (seqRun GenSpec.create "create" env paths).succeeded = paths.take i
      ∧ (seqRun GenSpec.create "create" env paths).attempted =
          paths.take (i + 1)
      ∧ paths.get ⟨i, hi⟩ ∉ (seqRun GenSpec.create "create" env paths).succeeded)
    ∧ ((env (paths.get ⟨i, hi⟩)).drop = CallOutcome.notPromise →
      (∀ j (hj : j < i),
        (env (paths.get ⟨j, Nat.lt_trans hj hi⟩)).drop = CallOutcome.ok) →
      dropTables env paths rows =
        (rows.filter (fun row => !((paths.take i).contains row.path)),
         .error (toString i ++ "/" ++ toString paths.length ++ " table"
           ++ sfx paths ++ " dropped: "
           ++ ("Invalid drop method in: "
                ++ (env (paths.get ⟨i, hi⟩)).className)))
      ∧ (seqRun GenSpec.drop "drop" env paths).succeeded = paths.take i
      ∧ paths.get ⟨i, hi⟩ ∉ (seqRun GenSpec.drop "drop" env paths).succeeded
      ∧ ∀ r ∈ rows, r.path = paths.get ⟨i, hi⟩ →
          r ∈ (dropTables env paths rows).1) := by
  have hne : paths ≠ [] := by
    intro h; subst h; simp at hi
  have hnp : CallOutcome.notPromise ≠ CallOutcome.ok :=
    fun hc => CallOutcome.noConfusion hc
  have hlen : (paths.take i).length = i := take_length_of_lt hi
  have hnotmem : paths.get ⟨i, hi⟩ ∉ paths.take i :=
    get_not_mem_take hnodup i hi
  have hcont : ((paths.take i).contains (paths.get ⟨i, hi⟩)) = false := by
    rw [Bool.eq_false_iff]
    intro hc
    exact hnotmem (by simpa using hc)
  constructor
  · intro hfail hok
    have hrun := seqRun_stops GenSpec.create "create" env paths i hi hok
      CallOutcome.notPromise hfail hnp
    have hmsg : seqErrMsg "create" (env (paths.get ⟨i, hi⟩))
        CallOutcome.notPromise =
        "Invalid create method in: " ++ (env (paths.get ⟨i, hi⟩)).className :=
      rfl
    rw [hmsg] at hrun
    refine ⟨?_, ?_, ?_, ?_⟩
    · simp only [createTables, hrun]
      rw [if_neg (by simp only [List.isEmpty_iff]; exact hne)]
      simp only [hlen]
      by_cases hi0 : i = 0
      · subst hi0
        simp
      · rw [if_pos (Nat.pos_of_ne_zero hi0)]
    · rw [hrun]
    · rw [hrun]
    · rw [hrun]
      exact hnotmem
  · intro hfail hok
    have hrun := seqRun_stops GenSpec.drop "drop" env paths i hi hok
      CallOutcome.notPromise hfail hnp
    have hmsg : seqErrMsg "drop" (env (paths.get ⟨i, hi⟩))
        CallOutcome.notPromise =
        "Invalid drop method in: " ++ (env (paths.get ⟨i, hi⟩)).className :=
      rfl
    rw [hmsg] at hrun
    have hmain : dropTables env paths rows =
        (rows.filter (fun row => !((paths.take i).contains row.path)),
         .error (toString i ++ "/" ++ toString paths.length ++ " table"
           ++ sfx paths ++ " dropped: "
           ++ ("Invalid drop method in: "
                ++ (env (paths.get ⟨i, hi⟩)).className))) := by
      simp only [dropTables, hrun]
      rw [if_neg (by simp only [List.isEmpty_iff]; exact hne)]
      simp only [hlen]
      by_cases hi0 : i = 0
      · subst hi0
        have hfix : rows.filter
            (fun row => !((paths.take 0).contains row.path)) = rows :=
          List.filter_eq_self.mpr (fun a _ => rfl)
        rw [if_neg (by omega), hfix]
      · rw [if_pos (Nat.pos_of_ne_zero hi0)]
    refine ⟨hmain, ?_, ?_, ?_⟩
    · rw [hrun]
    · rw [hrun]
      exact hnotmem
    · intro r hr hpath
      rw [hmain]
      refine List.mem_filter.mpr ⟨hr, ?_⟩
      rw [hpath, hcont]
      rfl

/-- C9 witness: with `b`'s `create()` / `drop()` returning a
non-awaitable, apply commits only `a` and undo forgets only `a`; the row
for `b` survives an undo. -/
theorem claim_C9_witness :
    createTables exEnvC9 ["a", "b", "c"] 4 [] =
      ([Row.mk "a" 4],
       .error
         "1/3 tables created: Invalid create method in: PostsTableGenerator")
    ∧ dropTables exEnvC9 ["a", "b", "c"] [Row.mk "b" 2] =
      ([Row.mk "b" 2],
       .error
         "1/3 tables dropped: Invalid drop method in: PostsTableGenerator") := by
  constructor
  · exact ((claim_C9 exEnvC9 ["a", "b", "c"] 4 [] 1 (by decide)
      (by decide)).1
      (by decide)
      (fun j hj => by
        have hj0 : j = 0 := by omega
        subst hj0
        show (exEnvC9 (["a", "b", "c"].get ⟨0, by decide⟩)).create =
          CallOutcome.ok
        decide)).1
  · exact ((claim_C9 exEnvC9 ["a", "b", "c"] 4 [Row.mk "b" 2] 1 (by decide)
      (by decide)).2
      (by decide)
      (fun j hj => by
        have hj0 : j = 0 := by omega
        subst hj0
        show (exEnvC9 (["a", "b", "c"].get ⟨0, by decide⟩)).drop =
          CallOutcome.ok
        decide)).1

theorem createTables_all_ok (env : String → GenSpec) (paths : List String)
    (batch : Nat) (rows : List Row) (hne : paths ≠ [])
    (henv : ∀ p ∈ paths, (env p).create = CallOutcome.ok) :
    createTables env paths batch rows =
      (rows ++ paths.map (fun p => mkRow p batch),
       .ok (toString paths.length ++ "/" ++ toString paths.length
         ++ " table" ++ sfx paths ++ " created")) := by
  have hrun := seqRun_all_ok GenSpec.create "create" env paths henv
  simp only [createTables, hrun]
  rw [if_neg (by simp only [List.isEmpty_iff]; exact hne)]

theorem dropTables_all_ok (env : String → GenSpec) (paths : List String)
    (rows : List Row) (hne : paths ≠ [])
    (henv : ∀ p ∈ paths, (env p).drop = CallOutcome.ok) :
    dropTables env paths rows =
      (rows.filter (fun row => !(paths.contains row.path)),
       .ok (toString paths.length ++ "/" ++ toString paths.length
         ++ " table" ++ sfx paths ++ " dropped")) := by
  have hrun := seqRun_all_ok GenSpec.drop "drop" env paths henv
  simp only [dropTables, hrun]
  rw [if_neg (by simp only [List.isEmpty_iff]; exact hne)]

/-- C5: round-trip — from any ledger state, a fully successful apply of
the N pending migrations followed immediately by a fully successful undo
leaves the ledger exactly in its pre-apply state; in particular zero
ledger rows remain for those N paths. -/
theorem claim_C5 (env : String → GenSpec) (rows : List Row)
    (dirPaths : List String)
    (henv : ∀ p, (env p).create = CallOutcome.ok
      ∧ (env p).drop = CallOutcome.ok)
    (hpending :
      dirPaths.filter (fun p => !((rows.map Row.path).contains p)) ≠ []) :
    (∃ m1, (generate env rows dirPaths).2 = .ok m1)
    ∧ (∃ m2, (rollback env (generate env rows dirPaths).1).2 = .ok m2)
    ∧ (rollback env (generate env rows dirPaths).1).1 = rows
    ∧ ∀ r ∈ (rollback env (generate env rows dirPaths).1).1,
        r.path ∉ dirPaths.filter
          (fun p => !((rows.map Row.path).contains p)) := by
  set B := lastBatch (rows.map Row.batch) with hB
  set pending := dirPaths.filter (fun p => !((rows.map Row.path).contains p))
    with hpendingDef
  have hpend_not_in : ∀ p ∈ pending, p ∉ rows.map Row.path := by
    intro p hp
    have := List.mem_filter.mp hp
    simpa using this.2
  have hplan : beReadyToGenerate rows dirPaths = .ok ⟨pending, B + 1⟩ := by
    simp only [beReadyToGenerate]
    rw [if_neg (by simp only [List.isEmpty_iff]; exact hpending)]
  have hgen : generate env rows dirPaths =
      (rows ++ pending.map (fun p => mkRow p (B + 1)),
       .ok (toString pending.length ++ "/" ++ toString pending.length
         ++ " table" ++ sfx pending ++ " created")) := by
    simp only [generate, hplan]
    exact createTables_all_ok env pending (B + 1) rows hpending
      (fun p _ => (henv p).1)
  have hb1 : (rows ++ pending.map (fun p => mkRow p (B + 1))).map Row.batch =
      rows.map Row.batch ++ pending.map (fun _ => B + 1) := by
    rw [List.map_append, List.map_map]
    rfl
  have hlast1 :
      lastBatch ((rows ++ pending.map (fun p => mkRow p (B + 1))).map
        Row.batch) = B + 1 := by
    rw [hb1, lastBatch_append, lastBatch_map_const pending (B + 1) hpending,
      ← hB, show Nat.max B (B + 1) = B + 1 from Nat.max_eq_right (Nat.le_succ B)]
  have hfilter : (rows ++ pending.map (fun p => mkRow p (B + 1))).filter
      (fun g => g.batch == B + 1) = pending.map (fun p => mkRow p (B + 1)) := by
    rw [List.filter_append]
    have h1 : rows.filter (fun g => g.batch == B + 1) = [] := by
      rw [List.filter_eq_nil_iff]
      intro r hr
      have hle : r.batch ≤ B := lastBatch_le (List.mem_map_of_mem Row.batch hr)
      simp only [beq_iff_eq]
      omega
    have h2 : (pending.map (fun p => mkRow p (B + 1))).filter
        (fun g => g.batch == B + 1) = pending.map (fun p => mkRow p (B + 1)) := by
      rw [List.filter_eq_self]
      intro a ha
      simp only [List.mem_map] at ha
      rcases ha with ⟨p, _, rfl⟩
      simp [mkRow]
    rw [h1, h2, List.nil_append]
  have hpaths2 : ((pending.map (fun p => mkRow p (B + 1))).map
      Row.path).reverse = pending.reverse := by
    rw [List.map_map]
    congr 1
    exact List.map_id _
  have hrev_ne : pending.reverse ≠ [] := by
    simpa [List.reverse_eq_nil_iff] using hpending
  have hplan2 : beReadyToRollback
      (rows ++ pending.map (fun p => mkRow p (B + 1))) =
      .ok pending.reverse := by
    simp only [beReadyToRollback, hlast1, hfilter, hpaths2]
    rw [if_neg (by simp only [List.isEmpty_iff]; exact hrev_ne)]
  have hdrop : dropTables env pending.reverse
      (rows ++ pending.map (fun p => mkRow p (B + 1))) =
      ((rows ++ pending.map (fun p => mkRow p (B + 1))).filter
        (fun row => !(pending.reverse.contains row.path)),
       .ok (toString pending.reverse.length ++ "/"
         ++ toString pending.reverse.length
         ++ " table" ++ sfx pending.reverse ++ " dropped")) :=
    dropTables_all_ok env pending.reverse _ hrev_ne
      (fun p _ => (henv p).2)
  have hfinal : (rows ++ pending.map (fun p => mkRow p (B + 1))).filter
      (fun row => !(pending.reverse.contains row.path)) = rows := by
    rw [List.filter_append]
    have h1 : rows.filter (fun row => !(pending.reverse.contains row.path)) =
        rows := by
      rw [List.filter_eq_self]
      intro r hr
      have hcont : pending.reverse.contains r.path = false := by
        rw [Bool.eq_false_iff]
        intro hc
        have hmem : r.path ∈ pending.reverse := by simpa using hc
        exact hpend_not_in r.path (List.mem_reverse.mp hmem)
          (List.mem_map_of_mem Row.path hr)
      rw [hcont]
      rfl
    have h2 : (pending.map (fun p => mkRow p (B + 1))).filter
        (fun row => !(pending.reverse.contains row.path)) = [] := by
      rw [List.filter_eq_nil_iff]
      intro a ha
      simp only [List.mem_map] at ha
      rcases ha with ⟨p, hp, rfl⟩
      have hmem : (mkRow p (B + 1)).path ∈ pending.reverse := by
        simpa [mkRow] using List.mem_reverse.mpr hp
      simp [List.mem_reverse] at hmem ⊢
      exact hmem
    rw [h1, h2, List.append_nil]
  have hroll : rollback env (generate env rows dirPaths).1 =
      (rows,
       .ok (toString pending.reverse.length ++ "/"
         ++ toString pending.reverse.length
         ++ " table" ++ sfx pending.reverse ++ " dropped")) := by
    rw [hgen]
    simp only [rollback, hplan2]
    rw [hdrop, hfinal]
  refine ⟨⟨_, by rw [hgen]⟩, ⟨_, by rw [hroll]⟩, by rw [hroll], ?_⟩
  intro r hr
  rw [hroll] at hr
  intro hmem
  exact hpend_not_in r.path hmem (List.mem_map_of_mem Row.path hr)

/-- C5 witness: applying the two pending files and undoing restores the
original one-row ledger. -/
theorem claim_C5_witness :
    (rollback allOkEnv
      (generate allOkEnv [Row.mk "a" 1] ["a", "b", "c"]).1).1 =
      [Row.mk "a" 1] :=
  (claim_C5 allOkEnv [Row.mk "a" 1] ["a", "b", "c"]
    (fun _ => ⟨rfl, rfl⟩) (by decide)).2.2.1

/-- C4 counterexample: apply, undo, apply over the same one-file
directory assigns batch 1 twice — batch numbers are reused after an undo,
so the sequence of assigned batches over operations with interleaved
undos is not duplicate-free. -/
theorem claim_C4_counterexample :
    (runOps allOkEnv [] [MigOp.apply ["a"], MigOp.undo, MigOp.apply ["a"]]).2 =
      [1, 1]
    ∧ ¬ (runOps allOkEnv []
        [MigOp.apply ["a"], MigOp.undo, MigOp.apply ["a"]]).2.Nodup := by
  constructor
  · decide
  · decide

theorem beReadyToGenerate_ok {rows : List Row} {dirPaths : List String}
    {g : Gen} (h : beReadyToGenerate rows dirPaths = .ok g) :
    g.paths = dirPaths.filter (fun p => !((rows.map Row.path).contains p))
    ∧ g.paths ≠ []
    ∧ g.batch = lastBatch (rows.map Row.batch) + 1 := by
  by_cases hp : (dirPaths.filter
      (fun p => !((rows.map Row.path).contains p))).isEmpty = true
  · simp only [beReadyToGenerate] at h
    rw [if_pos hp] at h
    cases h
  · simp only [beReadyToGenerate] at h
    rw [if_neg hp] at h
    cases h
    refine ⟨rfl, ?_, rfl⟩
    intro hnil
    exact hp (List.isEmpty_iff.mpr hnil)

theorem lastBatch_after_add (rows : List Row) (paths : List String) (b : Nat)
    (hne : paths ≠ []) (hle : lastBatch (rows.map Row.batch) ≤ b) :
    lastBatch ((rows ++ paths.map (fun p => mkRow p b)).map Row.batch) = b := by
  rw [List.map_append, List.map_map,
    show (Row.batch ∘ fun p => mkRow p b) = (fun _ => b) from rfl,
    lastBatch_append, lastBatch_map_const paths b hne,
    show Nat.max (lastBatch (rows.map Row.batch)) b = b from
      Nat.max_eq_right hle]

theorem runApplies_length_le (env : String → GenSpec) :
    ∀ (dirs : List (List String)) (rows : List Row),
      (runApplies env rows dirs).2.length ≤ dirs.length := by
  intro dirs
  induction dirs with
  | nil => intro rows; simp [runApplies]
  | cons dir dirs ih =>
    intro rows
    simp only [runApplies]
    cases hplan : beReadyToGenerate rows dir with
    | error e =>
      exact Nat.le_succ_of_le (ih rows)
    | ok g =>
      simp only [List.length_cons]
      exact Nat.succ_le_succ (ih _)

theorem runApplies_batches (env : String → GenSpec)
    (henv : ∀ p, (env p).create = CallOutcome.ok) :
    ∀ (dirs : List (List String)) (rows : List Row),
      (runApplies env rows dirs).2.length = dirs.length →
      (runApplies env rows dirs).2 =
        List.range' (lastBatch (rows.map Row.batch) + 1) dirs.length := by
  intro dirs
  induction dirs with
  | nil => intro rows _; simp [runApplies]
  | cons dir dirs ih =>
    intro rows hlen
    cases hplan : beReadyToGenerate rows dir with
    | error e =>
      exfalso
      have hle := runApplies_length_le env dirs rows
      simp only [runApplies, hplan] at hlen
      simp only [List.length_cons] at hlen
      omega
    | ok g =>
      obtain ⟨hpaths, hne, hbatch⟩ := beReadyToGenerate_ok hplan
      have hct := createTables_all_ok env g.paths g.batch rows hne
        (fun p _ => henv p)
      simp only [runApplies, hplan, hct] at hlen ⊢
      simp only [List.length_cons] at hlen
      have hlast : lastBatch
          ((rows ++ g.paths.map (fun p => mkRow p g.batch)).map Row.batch) =
          g.batch :=
        lastBatch_after_add rows g.paths g.batch hne (by omega)
      have hrec := ih (rows ++ g.paths.map (fun p => mkRow p g.batch))
        (by omega)
      rw [hrec, hlast, hbatch]
      simp only [List.length_cons]
      rw [List.range'_succ]

/-- C4 amended: every apply that gets past planning is assigned batch
`max(existing ledger batches) + 1`, which is strictly greater than every
batch currently recorded in the ledger (so a batch number is never
duplicated *while it is present*); and over any sequence of fully
successful applies with no interleaved undos, starting from an empty
ledger, the assigned batch numbers are exactly the strictly increasing
integers `1, 2, …, N`.  (After an undo removes the highest batch, the
next apply reuses that number — see the counterexample.) -/
theorem claim_C4_amended :
    (∀ (rows : List Row) (dir : List String) (g : Gen),
      beReadyToGenerate rows dir = .ok g →
      g.batch = lastBatch (rows.map Row.batch) + 1
      ∧ ∀ r ∈ rows, r.batch < g.batch)
    ∧ (∀ (env : String → GenSpec) (dirs : List (List String)),
      (∀ p, (env p).create = CallOutcome.ok) →
      (runApplies env [] dirs).2.length = dirs.length →
      (runApplies env [] dirs).2 = List.range' 1 dirs.length) := by
  constructor
  · intro rows dir g h
    obtain ⟨_, _, hbatch⟩ := beReadyToGenerate_ok h
    refine ⟨hbatch, ?_⟩
    intro r hr
    have := lastBatch_le (List.mem_map_of_mem Row.batch hr)
    omega
  · intro env dirs henv hlen
    have := runApplies_batches env henv dirs [] hlen
    simpa [lastBatch] using this

/-- C4 amended witness: three consecutive fully successful applies from
an empty ledger are assigned batches 1, 2, 3. -/
theorem claim_C4_amended_witness :
    (runApplies allOkEnv [] [["a"], ["a", "b"], ["a", "b", "c"]]).2 =
      [1, 2, 3] := by
  have h := (claim_C4_amended).2 allOkEnv [["a"], ["a", "b"], ["a", "b", "c"]]
    (fun _ => rfl) (by decide)
  simpa using h

/-- C6: `load` issues `SELECT * FROM generators` and caches the returned
rows on success; on a failure of the recognized class (a `QueryError`
instance — the class the source treats as "relation does not exist") it
provisions the `generators` table with surrogate `id` primary key, `path`
text not-null and `batch` small unsigned integer not-null, leaving the
cache as it was (empty on a fresh handler); any failure outside that
class propagates unchanged and provisions nothing. -/
theorem claim_C6 (cache0 : List Row) (cr : Except DbFailure Unit) :
    (∀ rows, load cache0 (.ok rows) cr =
      ⟨rows, [.selectAll "generators"], .ok ()⟩)
    ∧ (∀ m, (load cache0 (.error (.queryError m)) cr).actions =
        [.selectAll "generators",
         .createTable "generators" generatorTableColumns]
      ∧ (load cache0 (.error (.queryError m)) cr).cache = cache0
      ∧ (cache0 = [] → (load cache0 (.error (.queryError m)) cr).cache = []))
    ∧ (∀ m, load cache0 (.error (.other m)) cr =
        ⟨cache0, [.selectAll "generators"], .error (.other m)⟩)
    ∧ generatorTableColumns.map ColumnDef.colName = ["id", "path", "batch"]
    ∧ (∃ c ∈ generatorTableColumns, c.colName = "id" ∧ c.pk = true)
    ∧ (∃ c ∈ generatorTableColumns,
        c.colName = "path" ∧ c.textType = true ∧ c.notNull = true)
    ∧ (∃ c ∈ generatorTableColumns,
        c.colName = "batch" ∧ c.smallInt = true ∧ c.unsigned = true
        ∧ c.notNull = true) := by
  refine ⟨fun rows => rfl, fun m => ⟨rfl, rfl, fun h => h ▸ rfl⟩,
    fun m => rfl, rfl, ?_, ?_, ?_⟩
  · exact ⟨⟨"id", true, false, false, false, false⟩, by decide, rfl, rfl⟩
  · exact ⟨⟨"path", false, true, false, false, true⟩, by decide, rfl, rfl, rfl⟩
  · exact ⟨⟨"batch", false, false, true, true, true⟩, by decide, rfl, rfl,
      rfl, rfl⟩

/-- C6 witness: concrete instances of the three branches. -/
theorem claim_C6_witness :
    load [] (.ok [Row.mk "a" 1]) (.ok ()) =
      ⟨[Row.mk "a" 1], [.selectAll "generators"], .ok ()⟩
    ∧ (load [] (.error (.queryError "no such table")) (.ok ())).cache = []
    ∧ load [] (.error (.other "connection lost")) (.ok ()) =
      ⟨[], [.selectAll "generators"], .error (.other "connection lost")⟩ :=
  ⟨(claim_C6 [] (.ok ())).1 [Row.mk "a" 1],
   ((claim_C6 [] (.ok ())).2.1 "no such table").2.2 rfl,
   (claim_C6 [] (.ok ())).2.2.1 "connection lost"⟩

theorem before_in_append {α : Type} (p q : α → Bool) (A B : List α)
    (hA : ∀ x ∈ A, q x = false) (hB : ∀ x ∈ B, p x = false) :
    ∀ (i j : Nat) (hi : i < (A ++ B).length) (hj : j < (A ++ B).length),
      p ((A ++ B).get ⟨i, hi⟩) = true → q ((A ++ B).get ⟨j, hj⟩) = true →
      i < j := by
  intro i j hi hj hp hq
  have hiA : i < A.length := by
    by_contra hge
    have hge2 : A.length ≤ i := Nat.le_of_not_lt hge
    have hib : i - A.length < B.length := by
      rw [List.length_append] at hi; omega
    have hgi : (A ++ B).get ⟨i, hi⟩ = B.get ⟨i - A.length, hib⟩ := by
      simp [List.get_eq_getElem, List.getElem_append_right hge2]
    rw [hgi] at hp
    rw [hB _ (List.get_mem _ _ _)] at hp
    cases hp
  have hjA : A.length ≤ j := by
    by_contra hlt
    have hlt2 : j < A.length := Nat.lt_of_not_le hlt
    have hgj : (A ++ B).get ⟨j, hj⟩ = A.get ⟨j, hlt2⟩ := by
      simp [List.get_eq_getElem, List.getElem_append_left hlt2]
    rw [hgj] at hq
    rw [hA _ (List.get_mem _ _ _)] at hq
    cases hq
  omega

theorem ordered_of_decomp {α : Type} (p q : α → Bool) (A B : List α)
    (l : List α) (hl : l = A ++ B)
    (hA : ∀ x ∈ A, q x = false) (hB : ∀ x ∈ B, p x = false) :
    ∀ (i j : Nat) (hi : i < l.length) (hj : j < l.length),
      p (l.get ⟨i, hi⟩) = true → q (l.get ⟨j, hj⟩) = true → i < j := by
  subst hl
  exact before_in_append p q A B hA hB

/-- C10: if the reset step of `remove` runs and rejects, the call rejects
with that error and no file is deleted or renamed; moreover in every
remove call the event trace is reset-then-unlinks-then-renames: every
deletion strictly precedes every rename, and the reset strictly precedes
both. -/
theorem claim_C10 (name : String) (files : List MigFile) (e : String) :
    (files.filter (fun f => matchesTable name f) ≠ [] →
      resetSkipped files = false →
      removeRun name files (.error e) = ⟨true, [], [], .error e⟩
      ∧ removeTrace name files (.error e) = [RemoveEvent.resetPerformed])
    ∧ (∀ (ro : Except String Unit) (i j : Nat)
        (hi : i < (removeTrace name files ro).length)
        (hj : j < (removeTrace name files ro).length),
        ((removeTrace name files ro).get ⟨i, hi⟩).isUnlink = true →
        ((removeTrace name files ro).get ⟨j, hj⟩).isRenameEv = true →
        i < j)
    ∧ (∀ (ro : Except String Unit) (i j : Nat)
        (hi : i < (removeTrace name files ro).length)
        (hj : j < (removeTrace name files ro).length),
        ((removeTrace name files ro).get ⟨i, hi⟩).isReset = true →
        (((removeTrace name files ro).get ⟨j, hj⟩).isUnlink = true
          ∨ ((removeTrace name files ro).get ⟨j, hj⟩).isRenameEv = true) →
        i < j) := by
  refine ⟨?_, ?_, ?_⟩
  · intro hne hskip
    have h1 : removeRun name files (.error e) = ⟨true, [], [], .error e⟩ := by
      simp only [removeRun]
      rw [if_neg (by simp only [List.isEmpty_iff]; exact hne), hskip]
      simp
    refine ⟨h1, ?_⟩
    simp only [removeTrace, h1]
    simp
  · intro ro
    apply ordered_of_decomp RemoveEvent.isUnlink RemoveEvent.isRenameEv
      ((if (removeRun name files ro).resetInvoked then
          [RemoveEvent.resetPerformed] else [])
        ++ (removeRun name files ro).deleted.map RemoveEvent.unlinked)
      ((removeRun name files ro).renamedPairs.map
        (fun p => RemoveEvent.renamedTo p.1 p.2))
    · rfl
    · intro x hx
      rcases List.mem_append.mp hx with hx1 | hx2
      · by_cases hres : (removeRun name files ro).resetInvoked
        · rw [if_pos hres] at hx1
          simp only [List.mem_singleton] at hx1
          subst hx1
          rfl
        · rw [if_neg hres] at hx1
          simp at hx1
      · simp only [List.mem_map] at hx2
        rcases hx2 with ⟨f, _, rfl⟩
        rfl
    · intro x hx
      simp only [List.mem_map] at hx
      rcases hx with ⟨pr, _, rfl⟩
      rfl
  · intro ro i j hi hj hreset hor
    refine ordered_of_decomp RemoveEvent.isReset
      (fun ev => ev.isUnlink || ev.isRenameEv)
      (if (removeRun name files ro).resetInvoked then
          [RemoveEvent.resetPerformed] else [])
      ((removeRun name files ro).deleted.map RemoveEvent.unlinked
        ++ (removeRun name files ro).renamedPairs.map
          (fun p => RemoveEvent.renamedTo p.1 p.2))
      (removeTrace name files ro) (List.append_assoc _ _ _) ?_ ?_ i j hi hj
      hreset (by
        simp only [Bool.or_eq_true]
        rcases hor with h | h
        · exact Or.inl h
        · exact Or.inr h)
    · intro x hx
      by_cases hres : (removeRun name files ro).resetInvoked
      · rw [if_pos hres] at hx
        simp only [List.mem_singleton] at hx
        subst hx
        rfl
      · rw [if_neg hres] at hx
        simp at hx
    · intro x hx
      rcases List.mem_append.mp hx with hx1 | hx2
      · simp only [List.mem_map] at hx1
        rcases hx1 with ⟨f, _, rfl⟩
        rfl
      · simp only [List.mem_map] at hx2
        rcases hx2 with ⟨pr, _, rfl⟩
        rfl

/-- C10 witness: a rejecting reset in a `.js` directory aborts remove
with no deletions and no renames. -/
theorem claim_C10_witness :
    removeRun "users" exFiles7 (.error "reset failed") =
      ⟨true, [], [], .error "reset failed"⟩
    ∧ removeTrace "users" exFiles7 (.error "reset failed") =
      [RemoveEvent.resetPerformed] :=
  (claim_C10 "users" exFiles7 "reset failed").1 (by decide) (by decide)

theorem index_lt_of_only_in_first {α : Type} (p : α → Bool) (A B : List α)
    (l : List α) (hl : l = A ++ B) (hB : ∀ x ∈ B, p x = false) :
    ∀ (i : Nat) (hi : i < l.length), p (l.get ⟨i, hi⟩) = true →
      i < A.length := by
  subst hl
  intro i hi hp
  by_contra hge
  have hge2 : A.length ≤ i := Nat.le_of_not_lt hge
  have hib : i - A.length < B.length := by
    rw [List.length_append] at hi; omega
  have hgi : (A ++ B).get ⟨i, hi⟩ = B.get ⟨i - A.length, hib⟩ := by
    simp [List.get_eq_getElem, List.getElem_append_right hge2]
  rw [hgi] at hp
  rw [hB _ (List.get_mem _ _ _)] at hp
  cases hp

/-- C8 counterexample: in a pure-TypeScript directory every file is a
plain source file, so per the claim the reset must run — but the code
skips it because the first collected path is a `.ts` file; conversely in
a directory holding only a compiled artifact the claim says skip, but the
code runs the reset. -/
theorem claim_C8_counterexample :
    specResetCondition exFilesTs = true
    ∧ (removeRun "users" exFilesTs (.ok ())).resetInvoked = false
    ∧ (removeRun "users" exFilesTs (.ok ())).deleted ≠ []
    ∧ specResetCondition [MigFile.mk "m" "01" "users" MigExt.dts] = false
    ∧ (removeRun "users" [MigFile.mk "m" "01" "users" MigExt.dts]
        (.ok ())).resetInvoked = true := by
  refine ⟨by decide, by decide, by decide, by decide, by decide⟩

/-- C8 amended: during `remove` (with a non-empty delete set) the reset
runs iff the *first* collected file is not a TypeScript source file —
not iff some plain source file exists; when it runs, the reset drops the
table of every source definition currently in the directory (the
target's included, since it re-lists the directory before any deletion)
in reverse directory order, tolerating individual drop failures, then
drops the ledger's backing table; and when invoked it completes before
any deletion (its trace event is the first). -/
theorem claim_C8 (name : String) (files : List MigFile)
    (ro : Except String Unit) (dropOk : String → Bool) :
    (files.filter (fun f => matchesTable name f) ≠ [] →
      ((removeRun name files ro).resetInvoked = true ↔
        resetSkipped files = false))
    ∧ (files.filter (fun f => !(isMappedFile f)) ≠ [] →
      (resetRun files dropOk).dropSequence =
        ((files.filter (fun f => !(isMappedFile f))).reverse).map
          MigFile.table ++ ["generators"]
      ∧ (resetRun files dropOk).droppedCount =
          ((((files.filter (fun f => !(isMappedFile f))).reverse).map
            MigFile.table).filter dropOk).length
      ∧ ∃ m, (resetRun files dropOk).result = .ok m)
    ∧ (∀ (i : Nat) (hi : i < (removeTrace name files ro).length),
        ((removeTrace name files ro).get ⟨i, hi⟩).isReset = true → i = 0) := by
  refine ⟨?_, ?_, ?_⟩
  · intro hne
    simp only [removeRun]
    rw [if_neg (by simp only [List.isEmpty_iff]; exact hne)]
    by_cases hskip : resetSkipped files = true
    · rw [if_pos hskip]
      simp [hskip]
    · have hf : resetSkipped files = false := Bool.eq_false_iff.mpr hskip
      rw [if_neg hskip]
      cases ro <;> simp [hf]
  · intro hne
    simp only [resetRun]
    rw [if_neg (by simp only [List.isEmpty_iff]; exact hne)]
    exact ⟨rfl, rfl, _, rfl⟩
  · intro i hi hr
    have hlt := index_lt_of_only_in_first RemoveEvent.isReset
      (if (removeRun name files ro).resetInvoked then
          [RemoveEvent.resetPerformed] else [])
      ((removeRun name files ro).deleted.map RemoveEvent.unlinked
        ++ (removeRun name files ro).renamedPairs.map
          (fun p => RemoveEvent.renamedTo p.1 p.2))
      (removeTrace name files ro) (List.append_assoc _ _ _)
      (by
        intro x hx
        rcases List.mem_append.mp hx with hx1 | hx2
        · simp only [List.mem_map] at hx1
          rcases hx1 with ⟨f, _, rfl⟩
          rfl
        · simp only [List.mem_map] at hx2
          rcases hx2 with ⟨pr, _, rfl⟩
          rfl)
      i hi hr
    by_cases hres : (removeRun name files ro).resetInvoked = true
    · rw [if_pos hres] at hlt
      simp only [List.length_singleton] at hlt
      omega
    · rw [if_neg hres] at hlt
      simp at hlt

/-- C8 amended witness: in a `.js` directory the reset runs during
remove, and it drops the three source tables in reverse directory order
followed by the ledger table. -/
theorem claim_C8_witness :
    (removeRun "users" exFiles7 (.ok ())).resetInvoked = true
    ∧ (resetRun exFiles7 (fun _ => true)).dropSequence =
        ["tags", "posts", "users", "generators"] := by
  constructor
  · exact ((claim_C8 "users" exFiles7 (.ok ()) (fun _ => true)).1
      (by decide)).mpr (by decide)
  · exact (((claim_C8 "users" exFiles7 (.ok ()) (fun _ => true)).2.1
      (by decide)).1).trans (by decide)

theorem mem_groupKeys_aux (files : List MigFile) :
    ∀ (acc : List String) (x : String),
      (x ∈ files.foldl
        (fun ks f => if ks.contains f.numStr then ks else ks ++ [f.numStr])
        acc) ↔
      (x ∈ acc ∨ x ∈ files.map MigFile.numStr) := by
  induction files with
  | nil => intro acc x; simp
  | cons f fs ih =>
    intro acc x
    simp only [List.foldl_cons]
    by_cases hc : acc.contains f.numStr
    · rw [if_pos hc, ih]
      have hmem : f.numStr ∈ acc := by simpa using hc
      simp only [List.map_cons, List.mem_cons]
      constructor
      · rintro (h | h)
        · exact Or.inl h
        · exact Or.inr (Or.inr h)
      · rintro (h | h | h)
        · exact Or.inl h
        · subst h; exact Or.inl hmem
        · exact Or.inr h
    · rw [if_neg hc, ih]
      simp only [List.mem_append, List.mem_singleton, List.map_cons,
        List.mem_cons]
      tauto

theorem mem_groupKeys (files : List MigFile) (x : String) :
    x ∈ groupKeys files ↔ x ∈ files.map MigFile.numStr := by
  have h := mem_groupKeys_aux files [] x
  simpa [groupKeys] using h

theorem nodup_groupKeys_aux (files : List MigFile) :
    ∀ (acc : List String), acc.Nodup →
      (files.foldl
        (fun ks f => if ks.contains f.numStr then ks else ks ++ [f.numStr])
        acc).Nodup := by
  induction files with
  | nil => intro acc h; simpa using h
  | cons f fs ih =>
    intro acc h
    simp only [List.foldl_cons]
    by_cases hc : acc.contains f.numStr
    · rw [if_pos hc]; exact ih acc h
    · rw [if_neg hc]
      refine ih (acc ++ [f.numStr]) ?_
      rw [List.nodup_append]
      refine ⟨h, List.nodup_singleton _, ?_⟩
      intro a ha hb
      simp only [List.mem_singleton] at hb
      subst hb
      exact hc (by simpa using ha)

theorem nodup_groupKeys (files : List MigFile) : (groupKeys files).Nodup :=
  nodup_groupKeys_aux files [] List.nodup_nil

theorem flatten_filter_perm (key : MigFile → String) :
    ∀ (ks : List String) (l : List MigFile), ks.Nodup →
      (∀ x ∈ l, key x ∈ ks) →
      ((ks.map (fun k => l.filter (fun x => key x == k))).flatten).Perm l := by
  intro ks
  induction ks with
  | nil =>
    intro l _ hcov
    have : l = [] := List.eq_nil_iff_forall_not_mem.mpr
      (fun a ha => by simpa using hcov a ha)
    subst this
    simp
  | cons k ks ih =>
    intro l hnd hcov
    have hk_not : k ∉ ks := (List.nodup_cons.mp hnd).1
    have hnd2 : ks.Nodup := (List.nodup_cons.mp hnd).2
    have hstep : ∀ k2 ∈ ks,
        l.filter (fun x => key x == k2) =
        (l.filter (fun x => !(key x == k))).filter
          (fun x => key x == k2) := by
      intro k2 hk2
      rw [List.filter_filter]
      apply List.filter_congr
      intro x _
      by_cases hxk : (key x == k2) = true
      · have heq : key x = k2 := by simpa using hxk
        have hne2 : (key x == k) = false := by
          rw [Bool.eq_false_iff]
          intro hck
          have hkk : key x = k := by simpa using hck
          have hkeq : k = k2 := by rw [← hkk, heq]
          exact hk_not (hkeq ▸ hk2)
        simp [hxk, hne2]
      · have hxkf : (key x == k2) = false := Bool.eq_false_iff.mpr hxk
        simp [hxkf]
    have hmapeq : ks.map (fun k2 => l.filter (fun x => key x == k2)) =
        ks.map (fun k2 => (l.filter (fun x => !(key x == k))).filter
          (fun x => key x == k2)) :=
      List.map_congr_left hstep
    have hcov2 : ∀ x ∈ l.filter (fun x => !(key x == k)), key x ∈ ks := by
      intro x hx
      have hx2 := List.mem_filter.mp hx
      have hne : key x ≠ k := by
        intro heq
        have : (key x == k) = true := by simpa using heq
        rw [this] at hx2
        simpa using hx2.2
      rcases List.mem_cons.mp (hcov x hx2.1) with h | h
      · exact absurd h hne
      · exact h
    have hrec := ih (l.filter (fun x => !(key x == k))) hnd2 hcov2
    have h1 : ((k :: ks).map (fun k2 => l.filter (fun x => key x == k2))).flatten
        = l.filter (fun x => key x == k)
          ++ (ks.map (fun k2 => (l.filter (fun x => !(key x == k))).filter
            (fun x => key x == k2))).flatten := by
      simp only [List.map_cons, List.flatten_cons]
      rw [hmapeq]
    rw [h1]
    exact List.Perm.trans (List.Perm.append_left _ hrec)
      (List.filter_append_perm _ l)

/-- C7: after `remove` deletes the target table's files from a
canonically numbered directory, the remaining files are grouped by their
numeric prefix (each group non-empty, all members sharing one prefix, in
original relative order, every remaining file in exactly one group),
groups are ordered strictly ascending by sequence value, and the rename
step maps the files of the `i`-th group (0-based) to sequence `i + 1`
zero-padded to minimum width 2, preserving directory, table name,
extension, and the group order — a contiguous sequence starting at `01`
computed purely from what remains on disk. -/
theorem claim_C7 (name : String) (files : List MigFile)
    (hcanon : ∀ f ∈ files, f.numStr = pad2 (keyVal f.numStr)) :
    (∀ g ∈ group (keptFiles name files), g ≠ [])
    ∧ (∀ g ∈ group (keptFiles name files),
        ∀ f1 ∈ g, ∀ f2 ∈ g, f1.numStr = f2.numStr)
    ∧ (∀ g ∈ group (keptFiles name files), g.Sublist (keptFiles name files))
    ∧ ((group (keptFiles name files)).flatten).Perm (keptFiles name files)
    ∧ (∀ (i j : Nat) (hi : i < (group (keptFiles name files)).length)
        (hj : j < (group (keptFiles name files)).length), i < j →
        ∀ f1 ∈ (group (keptFiles name files)).get ⟨i, hi⟩,
        ∀ f2 ∈ (group (keptFiles name files)).get ⟨j, hj⟩,
          keyVal f1.numStr < keyVal f2.numStr)
    ∧ ((rename (group (keptFiles name files))).map Prod.fst =
        (group (keptFiles name files)).flatten)
    ∧ (∀ pr ∈ rename (group (keptFiles name files)),
        pr.2.dir = pr.1.dir ∧ pr.2.table = pr.1.table ∧ pr.2.ext = pr.1.ext)
    ∧ (∀ (i : Nat) (hi : i < (group (keptFiles name files)).length),
        ∀ f ∈ (group (keptFiles name files)).get ⟨i, hi⟩,
          (f, MigFile.mk f.dir (pad2 (i + 1)) f.table f.ext) ∈
            rename (group (keptFiles name files))) := by
  have hperm_sk :
      (List.insertionSort keyLe (groupKeys (keptFiles name files))).Perm
        (groupKeys (keptFiles name files)) :=
    List.perm_insertionSort keyLe _
  have hnd_sk :
      (List.insertionSort keyLe (groupKeys (keptFiles name files))).Nodup :=
    (hperm_sk.nodup_iff).mpr (nodup_groupKeys _)
  have hsorted :
      List.Sorted keyLe
        (List.insertionSort keyLe (groupKeys (keptFiles name files))) :=
    List.sorted_insertionSort keyLe _
  have hmem_sk : ∀ x,
      x ∈ List.insertionSort keyLe (groupKeys (keptFiles name files)) ↔
      x ∈ (keptFiles name files).map MigFile.numStr :=
    fun x => (hperm_sk.mem_iff).trans (mem_groupKeys _ x)
  have hcanon2 : ∀ f ∈ keptFiles name files,
      f.numStr = pad2 (keyVal f.numStr) :=
    fun f hf => hcanon f ((List.filter_sublist files).subset hf)
  have hkey_canon : ∀ k ∈
      List.insertionSort keyLe (groupKeys (keptFiles name files)),
      k = pad2 (keyVal k) := by
    intro k hk
    have := (hmem_sk k).mp hk
    simp only [List.mem_map] at this
    rcases this with ⟨f, hf, rfl⟩
    exact hcanon2 f hf
  refine ⟨?_, ?_, ?_, ?_, ?_, ?_, ?_, ?_⟩
  · intro g hg
    simp only [group, List.mem_map] at hg
    rcases hg with ⟨k, hk, rfl⟩
    have := (hmem_sk k).mp hk
    simp only [List.mem_map] at this
    rcases this with ⟨f, hf, hfk⟩
    exact List.ne_nil_of_mem
      (List.mem_filter.mpr ⟨hf, by simp [hfk]⟩)
  · intro g hg f1 hf1 f2 hf2
    simp only [group, List.mem_map] at hg
    rcases hg with ⟨k, _, rfl⟩
    have h1 := List.mem_filter.mp hf1
    have h2 := List.mem_filter.mp hf2
    have e1 : f1.numStr = k := by simpa using h1.2
    have e2 : f2.numStr = k := by simpa using h2.2
    rw [e1, e2]
  · intro g hg
    simp only [group, List.mem_map] at hg
    rcases hg with ⟨k, _, rfl⟩
    exact List.filter_sublist _
  · exact flatten_filter_perm MigFile.numStr _ _ hnd_sk
      (fun f hf => (hmem_sk _).mpr (List.mem_map_of_mem MigFile.numStr hf))
  · intro i j hi hj hij f1 hf1 f2 hf2
    have hi2 : i < (List.insertionSort keyLe
        (groupKeys (keptFiles name files))).length := by
      simpa [group] using hi
    have hj2 : j < (List.insertionSort keyLe
        (groupKeys (keptFiles name files))).length := by
      simpa [group] using hj
    have hgi : (group (keptFiles name files)).get ⟨i, hi⟩ =
        (keptFiles name files).filter (fun f => f.numStr ==
          (List.insertionSort keyLe
            (groupKeys (keptFiles name files))).get ⟨i, hi2⟩) := by
      simp [group, List.get_eq_getElem, List.getElem_map]
    have hgj : (group (keptFiles name files)).get ⟨j, hj⟩ =
        (keptFiles name files).filter (fun f => f.numStr ==
          (List.insertionSort keyLe
            (groupKeys (keptFiles name files))).get ⟨j, hj2⟩) := by
      simp [group, List.get_eq_getElem, List.getElem_map]
    rw [hgi] at hf1
    rw [hgj] at hf2
    have e1 : f1.numStr = (List.insertionSort keyLe
        (groupKeys (keptFiles name files))).get ⟨i, hi2⟩ := by
      simpa using (List.mem_filter.mp hf1).2
    have e2 : f2.numStr = (List.insertionSort keyLe
        (groupKeys (keptFiles name files))).get ⟨j, hj2⟩ := by
      simpa using (List.mem_filter.mp hf2).2
    have hle : keyLe ((List.insertionSort keyLe
        (groupKeys (keptFiles name files))).get ⟨i, hi2⟩)
        ((List.insertionSort keyLe
          (groupKeys (keptFiles name files))).get ⟨j, hj2⟩) :=
      hsorted.rel_get_of_lt (Fin.mk_lt_mk.mpr hij)
    have hne : (List.insertionSort keyLe
        (groupKeys (keptFiles name files))).get ⟨i, hi2⟩ ≠
        (List.insertionSort keyLe
          (groupKeys (keptFiles name files))).get ⟨j, hj2⟩ := by
      intro heq
      have hinj := List.nodup_iff_injective_get.mp hnd_sk heq
      have : i = j := by
        have := congrArg Fin.val hinj
        simpa using this
      omega
    have hvne : keyVal ((List.insertionSort keyLe
        (groupKeys (keptFiles name files))).get ⟨i, hi2⟩) ≠
        keyVal ((List.insertionSort keyLe
          (groupKeys (keptFiles name files))).get ⟨j, hj2⟩) := by
      intro hveq
      apply hne
      rw [hkey_canon _ (List.get_mem _ _ _), hveq]
      exact (hkey_canon _ (List.get_mem _ _ _)).symm
    rw [e1, e2]
    exact Nat.lt_of_le_of_ne hle hvne
  · simp only [rename]
    rw [List.map_flatten, List.map_map]
    have hcongr : (group (keptFiles name files)).enum.map
        ((List.map Prod.fst) ∘ (fun p : Nat × List MigFile =>
          p.2.map (fun f =>
            (f, MigFile.mk f.dir (pad2 (p.1 + 1)) f.table f.ext)))) =
        (group (keptFiles name files)).enum.map Prod.snd := by
      apply List.map_congr_left
      intro p _
      show (p.2.map (fun f =>
        (f, MigFile.mk f.dir (pad2 (p.1 + 1)) f.table f.ext))).map Prod.fst =
        p.2
      rw [List.map_map]
      exact List.map_id _
    rw [hcongr, List.enum_map_snd]
  · intro pr hpr
    simp only [rename, List.mem_flatten, List.mem_map] at hpr
    rcases hpr with ⟨L, ⟨p, _, rfl⟩, hprL⟩
    simp only [List.mem_map] at hprL
    rcases hprL with ⟨f, _, rfl⟩
    exact ⟨rfl, rfl, rfl⟩
  · intro i hi f hf
    have hienum : i < (group (keptFiles name files)).enum.length := by
      rw [List.enum_length]; exact hi
    have henum_mem : (i, (group (keptFiles name files)).get ⟨i, hi⟩) ∈
        (group (keptFiles name files)).enum := by
      have hg := List.getElem_enum (group (keptFiles name files)) i hienum
      have := List.getElem_mem hienum
      rw [hg] at this
      simpa [List.get_eq_getElem] using this
    simp only [rename, List.mem_flatten]
    refine ⟨((group (keptFiles name files)).get ⟨i, hi⟩).map
      (fun f => (f, MigFile.mk f.dir (pad2 (i + 1)) f.table f.ext)), ?_, ?_⟩
    · refine List.mem_map.mpr ⟨(i, (group (keptFiles name files)).get ⟨i, hi⟩),
        henum_mem, rfl⟩
    · exact List.mem_map.mpr ⟨f, hf, rfl⟩

/-- C7 witness: removing `posts` from a three-file directory regroups
`users`/`tags` and renames the `tags` file from sequence 03 to 02. -/
theorem claim_C7_witness :
    ((group (keptFiles "posts" exFiles7)).flatten).Perm
      (keptFiles "posts" exFiles7)
    ∧ (MigFile.mk "m" "03" "tags" MigExt.js,
       MigFile.mk "m" "02" "tags" MigExt.js) ∈
        rename (group (keptFiles "posts" exFiles7)) := by
  constructor
  · exact (claim_C7 "posts" exFiles7 (by decide)).2.2.2.1
  · exact (claim_C7 "posts" exFiles7 (by decide)).2.2.2.2.2.2.2
      1 (by decide) (MigFile.mk "m" "03" "tags" MigExt.js) (by decide)
